import Mathlib

/-!
Verification of the invoice boundary-detection / page-partitioning algorithm
and of the locate-redact-reinsert text-replacement pipeline of the
pdf-splitter repository.

Pages are modelled by their extracted text, a list of characters; Python
string primitives (slicing, case folding, containment, find) are embedded
as executable functions on character lists.  Lowercasing is modelled
character-wise, which preserves character offsets.
-/

set_option maxHeartbeats 1000000
set_option maxRecDepth 100000

/-- Extracted page text: a Python string as a list of characters. -/
abbrev Str := List Char

/-- Model of the Python str.lower method, applied character-wise. -/
def lowerStr (s : Str) : Str := s.map Char.toLower

/-- Index of the first occurrence of needle in hay, if any: the recursion
behind the Python str.find method. -/
def firstOccur (needle : Str) : Str → Option Nat
  | [] => if needle.isPrefixOf ([] : Str) then some 0 else none
  | c :: t =>
    if needle.isPrefixOf (c :: t) then some 0
    else (firstOccur needle t).map (fun i => i + 1)

/-- Model of the Python str.find method: first occurrence index, or -1. -/
def strFind (hay needle : Str) : Int :=
  match firstOccur needle hay with
  | some i => (i : Int)
  | none => -1

/-- Model of the Python substring containment test (the in operator). -/
def pyContains (hay needle : Str) : Bool := (firstOccur needle hay).isSome

/-- Needle occurs in hay at character offset i. -/
def occursAt (needle hay : Str) (i : Nat) : Prop := needle <+: hay.drop i

/-- One marker test from the literal-marker branch of
PDFSplitter._find_invoice_starts: case-insensitive containment in the first
500 characters, then first-occurrence offset below 500 in the whole text. -/
def markerMatches (marker text : Str) : Bool :=
  pyContains (lowerStr (text.take 500)) (lowerStr marker) &&
  decide (strFind (lowerStr text) (lowerStr marker) < 500)

/-- Page-level boundary decision of PDFSplitter._find_invoice_starts: the
regex branch is modelled by an abstract predicate standing for
re.search(pat, text, re.IGNORECASE); otherwise any literal marker may fire. -/
def pageIsNewInvoice (markers : List Str) (pat : Option (Str → Bool))
    (text : Str) : Bool :=
  match pat with
  | some p => p text
  | none => markers.any (fun m => markerMatches m text)

/-- Guarded page test: pages whose extracted text is empty are skipped. -/
def pageQualifies (markers : List Str) (pat : Option (Str → Bool))
    (text : Str) : Bool :=
  !text.isEmpty && pageIsNewInvoice markers pat text

/-- Model of PDFSplitter._find_invoice_starts: page 0 always starts the
list; every later page is appended when its text qualifies. -/
def findInvoiceStarts (pages : List Str) (markers : List Str)
    (pat : Option (Str → Bool)) : List Nat :=
  0 :: (List.range' 1 (pages.length - 1)).filter
    (fun k => pageQualifies markers pat (pages.getD k []))

/-- Decimal digits of a natural number, as rendered by Python %d. -/
def natDigits (n : Nat) : List Char := Nat.toDigits 10 n

/-- Model of the Python format spec 03d: decimal, zero-padded to width 3. -/
def pad3 (n : Nat) : String :=
  String.mk
    (if n < 10 then '0' :: '0' :: natDigits n
     else if n < 100 then '0' :: natDigits n
     else natDigits n)

/-- Consecutive (start, end) pairs of the boundary list augmented with the
total page count, as walked by the output loop of split_invoices. -/
def partitionRanges (starts : List Nat) (total : Nat) : List (Nat × Nat) :=
  let aug := starts ++ [total]
  aug.zip aug.tail

/-- One output artifact of split_invoices. -/
structure OutputDoc where
  name : String
  startPage : Nat
  endPage : Nat
  pages : List Str
deriving DecidableEq

/-- Placeholder output document, used only as a getD default. -/
def emptyOut : OutputDoc := { name := "", startPage := 0, endPage := 0, pages := [] }

/-- Pages copied into one output document: source pages start, ..., end-1. -/
def pagesOfRange (pages : List Str) (p : Nat × Nat) : List Str :=
  (List.range' p.1 (p.2 - p.1)).map (fun k => pages.getD k [])

/-- Model of PDFSplitter.split_invoices: detect boundaries, raise when the
boundary list is empty, append the page count, and emit one output document
named base_faktura_NNN.pdf per consecutive boundary pair. -/
def splitInvoices (base : String) (pages : List Str) (markers : List Str)
    (pat : Option (Str → Bool)) : Except String (List OutputDoc) :=
  let starts := findInvoiceStarts pages markers pat
  if starts.isEmpty then
    Except.error "Nisu pronadjene fakture u PDF-u"
  else
    let segs := partitionRanges starts pages.length
    Except.ok ((List.range segs.length).map (fun i =>
      let p := segs.getD i (0, 0)
      { name := base ++ "_faktura_" ++ pad3 (i + 1) ++ ".pdf"
        startPage := p.1
        endPage := p.2
        pages := pagesOfRange pages p }))

example : pad3 1 = "001" := by decide

example : splitInvoices "doc" [] [] none =
    Except.ok [{ name := "doc_faktura_001.pdf", startPage := 0, endPage := 0,
                 pages := [] }] := by rfl

example : splitInvoices "d" [['a'], ['b']] [] none =
    Except.ok [{ name := "d_faktura_001.pdf", startPage := 0, endPage := 2,
                 pages := [['a'], ['b']] }] := by rfl

example : markerMatches ['i', 'n', 'v'] ['I', 'N', 'V', 'x'] = true := by decide

/-- Bounding rectangle of a located text match, in page coordinates. -/
structure Rect where
  x0 : ℚ
  y0 : ℚ
  x1 : ℚ
  y1 : ℚ
deriving DecidableEq

/-- Height of a rectangle, as the fitz Rect.height property. -/
def rectHeight (r : Rect) : ℚ := r.y1 - r.y0

/-- Font size chosen by the editor: 80 percent of the region height. -/
def fontSizeOf (r : Rect) : ℚ := rectHeight r * (4 / 5)

/-- Insertion point chosen by the editor: left edge, bottom edge lifted by
half the difference between region height and font size. -/
def insertPointOf (r : Rect) : ℚ × ℚ :=
  (r.x0, r.y1 - (rectHeight r - fontSizeOf r) / 2)

/-- One pending text insertion recorded before redactions are applied. -/
structure Insertion where
  point : ℚ × ℚ
  fontSize : ℚ
  text : Str
deriving DecidableEq

/-- Abstract PyMuPDF page capability: layout-aware search over the page
content, batch redaction, and text insertion.  The content type is opaque;
only these operations are available to the editing pipeline. -/
structure FitzApi (π : Type) where
  search : π → Str → List Rect
  applyRed : π → List Rect → π
  insert : π → Insertion → π

/-- State of one page while it is edited: current content plus the redact
annotations added but not yet applied. -/
structure PageState (π : Type) where
  content : π
  pending : List Rect

/-- Model of fitz page.search_for: reads the current content only. -/
def searchFor {π : Type} (api : FitzApi π) (s : PageState π) (key : Str) :
    List Rect := api.search s.content key

/-- Model of fitz page.add_redact_annot: records the rectangle without
touching the page content. -/
def addRedactAnnot {π : Type} (s : PageState π) (r : Rect) : PageState π :=
  { content := s.content, pending := s.pending ++ [r] }

/-- Model of fitz page.apply_redactions: removes the content under every
pending rectangle in one batch. -/
def applyRedactions {π : Type} (api : FitzApi π) (s : PageState π) :
    PageState π :=
  { content := api.applyRed s.content s.pending, pending := [] }

/-- Model of fitz page.insert_text. -/
def insertText {π : Type} (api : FitzApi π) (s : PageState π)
    (ins : Insertion) : PageState π :=
  { content := api.insert s.content ins, pending := s.pending }

/-- One iteration of the key loop of PDFEditor.replace_text_multiple:
search the live page for the old text, add one redact annotation per hit,
and record the insertion geometry computed from the located rectangles. -/
def replStep {π : Type} (api : FitzApi π)
    (acc : PageState π × List Insertion) (kv : Str × Str) :
    PageState π × List Insertion :=
  let insts := searchFor api acc.1 kv.1
  (insts.foldl (fun st r => addRedactAnnot st r) acc.1,
   acc.2 ++ insts.map (fun r =>
     { point := insertPointOf r, fontSize := fontSizeOf r, text := kv.2 }))

/-- The text_insertions list gathered by the key loop for one page. -/
def pageInsertions {π : Type} (api : FitzApi π) (repls : List (Str × Str))
    (s0 : PageState π) : List Insertion :=
  (repls.foldl (replStep api) (s0, [])).2

/-- Model of the per-page body of PDFEditor.replace_text_multiple: run the
key loop, apply all redactions at once when any insertion is pending, then
insert every recorded replacement text. -/
def processPage {π : Type} (api : FitzApi π) (repls : List (Str × Str))
    (s0 : PageState π) : PageState π :=
  let r := repls.foldl (replStep api) (s0, [])
  let s2 := if r.2.isEmpty then r.1 else applyRedactions api r.1
  r.2.foldl (insertText api) s2

/-- Modelled from the spec: all insertions for one page, computed purely
from the pre-redaction page content across every replacement key. -/
def locateAll {π : Type} (api : FitzApi π) (repls : List (Str × Str))
    (content : π) : List Insertion :=
  repls.flatMap (fun kv => (api.search content kv.1).map (fun r =>
    { point := insertPointOf r, fontSize := fontSizeOf r, text := kv.2 }))

/-- Modelled from the spec: all regions for one page, located on the
pre-redaction page content across every replacement key. -/
def rectsAll {π : Type} (api : FitzApi π) (repls : List (Str × Str))
    (content : π) : List Rect :=
  repls.flatMap (fun kv => api.search content kv.1)

/-- Modelled from the spec (section 4.4): locate everything first from the
original geometry, apply one redaction batch, then insert all texts. -/
def specProcessPage {π : Type} (api : FitzApi π) (repls : List (Str × Str))
    (s0 : PageState π) : PageState π :=
  let ins := locateAll api repls s0.content
  let s1 : PageState π :=
    { content := s0.content, pending := s0.pending ++ rectsAll api repls s0.content }
  let s2 := if ins.isEmpty then s1 else applyRedactions api s1
  ins.foldl (insertText api) s2

/-- Model of the page loop of PDFEditor.replace_text_multiple: every page
of the document is processed in order. -/
def replaceTextMultiple {π : Type} (api : FitzApi π)
    (repls : List (Str × Str)) (doc : List (PageState π)) :
    List (PageState π) :=
  doc.map (processPage api repls)

/-- Trivial page capability used to instantiate the editing theorems. -/
def trivApi : FitzApi Nat :=
  { search := fun _ _ => [], applyRed := fun c _ => c + 1,
    insert := fun c _ => c + 1 }

example : (∀ n, n < 1000 → (pad3 n).length = 3) := by decide

/-- Boolean prefix test agrees with the prefix relation. -/
lemma isPrefixOf_eq_true_iff {l1 l2 : Str} : l1.isPrefixOf l2 = true ↔ l1 <+: l2 :=
  List.isPrefixOf_iff_prefix

/-- When firstOccur returns an index, the needle occurs there. -/
lemma firstOccur_some_occurs {needle hay : Str} {i : Nat}
    (h : firstOccur needle hay = some i) : occursAt needle hay i := by
  induction hay generalizing i with
  | nil =>
    unfold firstOccur at h
    split at h
    · rename_i hp
      cases h
      exact isPrefixOf_eq_true_iff.mp hp
    · cases h
  | cons c t ih =>
    unfold firstOccur at h
    split at h
    · rename_i hp
      cases h
      exact isPrefixOf_eq_true_iff.mp hp
    · rcases Option.map_eq_some'.mp h with ⟨j, hj, rfl⟩
      have := ih hj
      simpa [occursAt] using this

/-- The index returned by firstOccur is the least occurrence index. -/
lemma firstOccur_min {needle hay : Str} {i : Nat}
    (h : firstOccur needle hay = some i) :
    ∀ j, occursAt needle hay j → i ≤ j := by
  induction hay generalizing i with
  | nil =>
    unfold firstOccur at h
    split at h
    · cases h
      intro j _
      exact Nat.zero_le j
    · cases h
  | cons c t ih =>
    unfold firstOccur at h
    split at h
    · cases h
      intro j _
      exact Nat.zero_le j
    · rename_i hp
      rcases Option.map_eq_some'.mp h with ⟨j', hj', rfl⟩
      intro j hj
      cases j with
      | zero =>
        exact absurd (isPrefixOf_eq_true_iff.mpr (by simpa [occursAt] using hj)) hp
      | succ k =>
        have hk : occursAt needle t k := by simpa [occursAt] using hj
        exact Nat.succ_le_succ (ih hj' k hk)

/-- If the needle occurs anywhere, firstOccur finds some index. -/
lemma occurs_firstOccur_isSome {needle hay : Str} {j : Nat}
    (h : occursAt needle hay j) : (firstOccur needle hay).isSome := by
  induction hay generalizing j with
  | nil =>
    have hn : needle = [] := List.prefix_nil.mp (by simpa [occursAt] using h)
    subst hn
    simp [firstOccur, List.isPrefixOf]
  | cons c t ih =>
    unfold firstOccur
    split
    · simp
    · rename_i hp
      cases j with
      | zero =>
        exact absurd (isPrefixOf_eq_true_iff.mpr (by simpa [occursAt] using h)) hp
      | succ k =>
        have := ih (j := k) (by simpa [occursAt] using h)
        simpa using this

/-- Python substring containment agrees with the infix relation. -/
lemma pyContains_iff {hay needle : Str} :
    pyContains hay needle = true ↔ needle <:+: hay := by
  constructor
  · intro h
    rcases Option.isSome_iff_exists.mp (by simpa [pyContains] using h) with ⟨i, hi⟩
    rcases firstOccur_some_occurs hi with ⟨r, hr⟩
    refine ⟨hay.take i, r, ?_⟩
    rw [List.append_assoc, hr, List.take_append_drop]
  · rintro ⟨s, t, hst⟩
    have hd : hay.drop s.length = needle ++ t := by
      rw [← hst, List.append_assoc, List.drop_left]
    have hocc : occursAt needle hay s.length := by
      show needle <+: hay.drop s.length
      rw [hd]
      exact ⟨t, rfl⟩
    simpa [pyContains] using occurs_firstOccur_isSome hocc

/-- An occurrence inside the first k characters is an occurrence in the
whole text, and the needle fits between offset i and position k. -/
lemma occursAt_take {needle hay : Str} {k i : Nat}
    (h : occursAt needle (hay.take k) i) :
    occursAt needle hay i ∧ needle.length ≤ k - i := by
  have h' : needle <+: (hay.drop i).take (k - i) := by
    have := h
    rwa [occursAt, List.drop_take] at this
  constructor
  · exact h'.trans ⟨(hay.drop i).drop (k - i), List.take_append_drop _ _⟩
  · have hl := h'.length_le
    rw [List.length_take] at hl
    exact le_trans hl (min_le_left _ _)

/-- Character-wise lowering commutes with taking a text window. -/
lemma lowerStr_take (text : Str) (k : Nat) :
    lowerStr (text.take k) = (lowerStr text).take k := by
  simp [lowerStr, List.map_take]

/-- A marker whose every case-insensitive occurrence lies at offset 500 or
beyond fails the literal-marker test. -/
lemma markerMatches_far_false {marker text : Str}
    (hfar : ∀ i, occursAt (lowerStr marker) (lowerStr text) i → 500 ≤ i) :
    markerMatches marker text = false := by
  unfold markerMatches
  cases hc : pyContains (lowerStr (text.take 500)) (lowerStr marker) with
  | false => simp
  | true =>
    exfalso
    rcases Option.isSome_iff_exists.mp (by simpa [pyContains] using hc) with ⟨i, hi⟩
    have hocc := firstOccur_some_occurs hi
    rw [lowerStr_take] at hocc
    rcases occursAt_take hocc with ⟨hoccT, hlen⟩
    have h500 : 500 ≤ i := hfar i hoccT
    have hm : lowerStr marker = [] := List.length_eq_zero.mp (by omega)
    have h0 : occursAt (lowerStr marker) (lowerStr text) 0 := by
      show lowerStr marker <+: (lowerStr text).drop 0
      rw [hm]
      exact ⟨_, rfl⟩
    have := hfar 0 h0
    omega

/-- The literal-marker test holds exactly when the lowered marker sits in
the first 500 characters and its first occurrence in the whole lowered
text is at offset below 500. -/
lemma markerMatches_iff {marker text : Str} :
    markerMatches marker text = true ↔
      lowerStr marker <:+: lowerStr (text.take 500) ∧
      ∃ i, i < 500 ∧ occursAt (lowerStr marker) (lowerStr text) i ∧
        ∀ j, occursAt (lowerStr marker) (lowerStr text) j → i ≤ j := by
  constructor
  · intro h
    unfold markerMatches at h
    rw [Bool.and_eq_true] at h
    rcases h with ⟨h1, h2⟩
    refine ⟨pyContains_iff.mp h1, ?_⟩
    rcases Option.isSome_iff_exists.mp (by simpa [pyContains] using h1) with ⟨iw, hiw⟩
    have hoccw := firstOccur_some_occurs hiw
    rw [lowerStr_take] at hoccw
    have hoccT := (occursAt_take hoccw).1
    rcases Option.isSome_iff_exists.mp (occurs_firstOccur_isSome hoccT) with ⟨i0, hi0⟩
    have hlt : strFind (lowerStr text) (lowerStr marker) < 500 := of_decide_eq_true h2
    unfold strFind at hlt
    rw [hi0] at hlt
    change (i0 : Int) < 500 at hlt
    refine ⟨i0, by exact_mod_cast hlt, firstOccur_some_occurs hi0, firstOccur_min hi0⟩
  · rintro ⟨hinf, i, hi500, hocc, hmin⟩
    unfold markerMatches
    rw [Bool.and_eq_true]
    refine ⟨pyContains_iff.mpr hinf, ?_⟩
    apply decide_eq_true
    rcases Option.isSome_iff_exists.mp (occurs_firstOccur_isSome hocc) with ⟨i0, hi0⟩
    have h1 : i0 ≤ i := firstOccur_min hi0 i hocc
    unfold strFind
    rw [hi0]
    have h2 : i0 < 500 := lt_of_le_of_lt h1 hi500
    show (i0 : Int) < 500
    exact_mod_cast h2

/-- The two-condition literal-marker test coincides with the containment
test on the first 500 characters alone. -/
lemma markerMatches_eq_contains (marker text : Str) :
    markerMatches marker text =
      pyContains (lowerStr (text.take 500)) (lowerStr marker) := by
  cases hc : pyContains (lowerStr (text.take 500)) (lowerStr marker) with
  | false =>
    unfold markerMatches
    rw [hc]
    simp
  | true =>
    rcases Option.isSome_iff_exists.mp (by simpa [pyContains] using hc) with ⟨iw, hiw⟩
    have hoccw := firstOccur_some_occurs hiw
    rw [lowerStr_take] at hoccw
    rcases occursAt_take hoccw with ⟨hoccT, hlen⟩
    rcases Option.isSome_iff_exists.mp (occurs_firstOccur_isSome hoccT) with ⟨i0, hi0⟩
    have hmin := firstOccur_min hi0
    have hi0occ := firstOccur_some_occurs hi0
    have hi0lt : i0 < 500 := by
      by_cases hm : lowerStr marker = []
      · have h0 : occursAt (lowerStr marker) (lowerStr text) 0 := by
          show lowerStr marker <+: (lowerStr text).drop 0
          rw [hm]
          exact ⟨_, rfl⟩
        have := hmin 0 h0
        omega
      · have h1 : (lowerStr marker).length ≠ 0 :=
          fun h => hm (List.length_eq_zero.mp h)
        have h2 : iw < 500 := by omega
        have := hmin iw hoccT
        omega
    exact markerMatches_iff.mpr ⟨pyContains_iff.mp hc, i0, hi0lt, hi0occ, hmin⟩

/-- Head of a nonempty nondecreasing chain is at most its last element. -/
lemma chainLe_head_le_last :
    ∀ (l : List Nat) (a b : Nat), l.Chain' (· ≤ ·) → l.head? = some a →
      l.getLast? = some b → a ≤ b := by
  intro l
  induction l with
  | nil =>
    intro a b _ hh _
    cases hh
  | cons x t ih =>
    intro a b hc hh hl
    rw [List.head?_cons] at hh
    cases hh
    cases t with
    | nil =>
      simp at hl
      omega
    | cons y t' =>
      rw [List.getLast?_cons_cons] at hl
      rcases List.chain'_cons.mp hc with ⟨hxy, hc'⟩
      exact le_trans hxy (ih y b hc' (by simp) hl)

/-- Flattening the page ranges of consecutive pairs of a nondecreasing
boundary chain yields one contiguous range from head to last. -/
lemma zipTail_flatten :
    ∀ (l : List Nat) (a b : Nat), l.Chain' (· ≤ ·) → l.head? = some a →
      l.getLast? = some b →
      ((l.zip l.tail).map (fun p => List.range' p.1 (p.2 - p.1))).flatten =
        List.range' a (b - a) := by
  intro l
  induction l with
  | nil =>
    intro a b _ hh _
    cases hh
  | cons x t ih =>
    intro a b hc hh hl
    rw [List.head?_cons] at hh
    cases hh
    cases t with
    | nil =>
      simp at hl
      subst hl
      simp
    | cons y t' =>
      rw [List.getLast?_cons_cons] at hl
      rcases List.chain'_cons.mp hc with ⟨hxy, hc'⟩
      have hyb : y ≤ b := chainLe_head_le_last (y :: t') y b hc' (by simp) hl
      have ihy := ih y b hc' (by simp) hl
      simp only [List.tail_cons] at ihy
      simp only [List.tail_cons, List.zip_cons_cons, List.map_cons,
        List.flatten_cons]
      rw [ihy]
      have h1 : x + 1 * (y - x) = y := by omega
      have h2 := List.range'_append x (y - x) (b - y) 1
      rw [h1] at h2
      rw [h2]
      congr 1
      omega

/-- Appending the page count keeps the augmented boundary list a
nondecreasing chain. -/
lemma aug_chainLe {bs : List Nat} {N : Nat} (hchain : bs.Chain' (· < ·))
    (hbound : ∀ b ∈ bs, b ≤ N) : (bs ++ [N]).Chain' (· ≤ ·) := by
  apply List.chain'_append.mpr
  refine ⟨hchain.imp (fun _ _ h => le_of_lt h), List.chain'_singleton N, ?_⟩
  intro x hx y hy
  simp at hy
  subst hy
  rcases List.mem_getLast?_eq_getLast hx with ⟨hne, hxe⟩
  exact hbound x (by rw [hxe]; exact List.getLast_mem hne)

/-- Head of the augmented boundary list. -/
lemma aug_head {bs : List Nat} {N : Nat} (hh : bs.head? = some 0) :
    (bs ++ [N]).head? = some 0 := by
  rw [List.head?_append, hh]
  rfl

/-- Last element of the augmented boundary list. -/
lemma aug_last {bs : List Nat} {N : Nat} : (bs ++ [N]).getLast? = some N :=
  List.getLast?_concat bs

/-- The output page ranges of the partitioner cover 0, ..., N-1 exactly
once and in order. -/
lemma partitionRanges_flatten {bs : List Nat} {N : Nat}
    (hchain : bs.Chain' (· < ·)) (hhead : bs.head? = some 0)
    (hbound : ∀ b ∈ bs, b ≤ N) :
    ((partitionRanges bs N).map (fun p => List.range' p.1 (p.2 - p.1))).flatten =
      List.range N := by
  unfold partitionRanges
  rw [zipTail_flatten (bs ++ [N]) 0 N (aug_chainLe hchain hbound)
    (aug_head hhead) aug_last]
  rw [Nat.sub_zero, List.range_eq_range']

/-- One output range per boundary entry. -/
lemma partitionRanges_length (bs : List Nat) (N : Nat) :
    (partitionRanges bs N).length = bs.length := by
  unfold partitionRanges
  rw [List.length_zip, List.length_tail]
  simp

/-- The sizes of the output page ranges sum to the page count. -/
lemma partitionRanges_sum {bs : List Nat} {N : Nat}
    (hchain : bs.Chain' (· < ·)) (hhead : bs.head? = some 0)
    (hbound : ∀ b ∈ bs, b ≤ N) :
    ((partitionRanges bs N).map (fun p => p.2 - p.1)).sum = N := by
  have hf := congrArg List.length (partitionRanges_flatten hchain hhead hbound)
  rw [List.length_flatten, List.length_range, List.map_map] at hf
  have he : (List.length ∘ fun p : Nat × Nat => List.range' p.1 (p.2 - p.1)) =
      (fun p : Nat × Nat => p.2 - p.1) := by
    funext p
    simp [List.length_range']
  rw [he] at hf
  exact hf

/-- The output page ranges are pairwise disjoint. -/
lemma partitionRanges_disjoint {bs : List Nat} {N : Nat}
    (hchain : bs.Chain' (· < ·)) (hhead : bs.head? = some 0)
    (hbound : ∀ b ∈ bs, b ≤ N) :
    (partitionRanges bs N).Pairwise
      (fun p q => ∀ k ∈ List.range' p.1 (p.2 - p.1),
        k ∉ List.range' q.1 (q.2 - q.1)) := by
  have hnd : ((partitionRanges bs N).map
      (fun p => List.range' p.1 (p.2 - p.1))).flatten.Nodup := by
    rw [partitionRanges_flatten hchain hhead hbound]
    exact List.nodup_range N
  have hp := (List.nodup_flatten.mp hnd).2
  rw [List.pairwise_map] at hp
  refine hp.imp ?_
  intro p q h k hk hk2
  exact h hk hk2

/-- Claim C1: for a document of N pages (N at least 1) and a strictly
increasing boundary list starting at 0 and bounded by N, split_invoices
builds one output per consecutive pair of the augmented boundary list, and
the output ranges tile the interval from 0 to N: they are pairwise
disjoint, contiguous, in original order, covering every page exactly once,
with sizes summing to N. -/
theorem split_partition_correct (bs : List Nat) (N : Nat) (_hN : 1 ≤ N)
    (hchain : bs.Chain' (· < ·)) (hhead : bs.head? = some 0)
    (hbound : ∀ b ∈ bs, b ≤ N) :
    (partitionRanges bs N).length = bs.length ∧
    ((partitionRanges bs N).map (fun p => List.range' p.1 (p.2 - p.1))).flatten =
      List.range N ∧
    ((partitionRanges bs N).map (fun p => p.2 - p.1)).sum = N ∧
    (partitionRanges bs N).Pairwise
      (fun p q => ∀ k ∈ List.range' p.1 (p.2 - p.1),
        k ∉ List.range' q.1 (q.2 - q.1)) :=
  ⟨partitionRanges_length bs N, partitionRanges_flatten hchain hhead hbound,
   partitionRanges_sum hchain hhead hbound,
   partitionRanges_disjoint hchain hhead hbound⟩

/-- Witness for C1 at the boundary list 0, 2 over a 3-page document. -/
theorem split_partition_correct_witness :
    (1 ≤ 3 ∧ ([0, 2] : List Nat).Chain' (· < ·) ∧
      ([0, 2] : List Nat).head? = some 0 ∧
      (∀ b ∈ ([0, 2] : List Nat), b ≤ 3)) ∧
    ((partitionRanges [0, 2] 3).length = ([0, 2] : List Nat).length ∧
     ((partitionRanges [0, 2] 3).map
        (fun p => List.range' p.1 (p.2 - p.1))).flatten = List.range 3 ∧
     ((partitionRanges [0, 2] 3).map (fun p => p.2 - p.1)).sum = 3 ∧
     (partitionRanges [0, 2] 3).Pairwise
       (fun p q => ∀ k ∈ List.range' p.1 (p.2 - p.1),
         k ∉ List.range' q.1 (q.2 - q.1))) :=
  ⟨⟨by decide, by simp [List.chain'_cons], by decide, by decide⟩,
   split_partition_correct [0, 2] 3 (by decide) (by simp [List.chain'_cons])
     (by decide) (by decide)⟩

/-- The boundary list is strictly sorted. -/
lemma findStarts_pairwise (pages markers : List Str)
    (pat : Option (Str → Bool)) :
    (findInvoiceStarts pages markers pat).Pairwise (· < ·) := by
  unfold findInvoiceStarts
  apply List.pairwise_cons.mpr
  constructor
  · intro b hb
    have hmem := List.mem_of_mem_filter hb
    have := List.mem_range'_1.mp hmem
    omega
  · exact (List.pairwise_lt_range' 1 (pages.length - 1) 1 (by norm_num)).filter _

/-- The boundary list is a strictly increasing chain. -/
lemma findStarts_chain (pages markers : List Str)
    (pat : Option (Str → Bool)) :
    (findInvoiceStarts pages markers pat).Chain' (· < ·) :=
  (findStarts_pairwise pages markers pat).chain'

/-- The boundary list always begins with page 0. -/
lemma findStarts_head (pages markers : List Str)
    (pat : Option (Str → Bool)) :
    (findInvoiceStarts pages markers pat).head? = some 0 := rfl

/-- The boundary list is never empty. -/
lemma findStarts_ne_nil (pages markers : List Str)
    (pat : Option (Str → Bool)) :
    findInvoiceStarts pages markers pat ≠ [] := by
  unfold findInvoiceStarts
  exact List.cons_ne_nil _ _

/-- On a document with at least one page, every boundary index is a valid
page index. -/
lemma findStarts_bounded {pages : List Str} (markers : List Str)
    (pat : Option (Str → Bool)) (h : 1 ≤ pages.length) :
    ∀ b ∈ findInvoiceStarts pages markers pat, b < pages.length := by
  intro b hb
  unfold findInvoiceStarts at hb
  rcases List.mem_cons.mp hb with h0 | hmem
  · omega
  · have := List.mem_range'_1.mp (List.mem_of_mem_filter hmem)
    omega

/-- Each page contributes at most one boundary entry. -/
lemma findStarts_nodup (pages markers : List Str)
    (pat : Option (Str → Bool)) :
    (findInvoiceStarts pages markers pat).Nodup :=
  (findStarts_pairwise pages markers pat).imp (fun h => Nat.ne_of_lt h)

/-- Claim C3 (amended): on every document with at least one page, the
boundary list of _find_invoice_starts is strictly increasing, begins with
0, contains only valid page indices, and has at most one entry per page.
On a zero-page document the list is the single entry 0, which is not below
the page count. -/
theorem boundary_list_invariants (pages markers : List Str)
    (pat : Option (Str → Bool)) (h : 1 ≤ pages.length) :
    (findInvoiceStarts pages markers pat).Chain' (· < ·) ∧
    (findInvoiceStarts pages markers pat).head? = some 0 ∧
    (∀ b ∈ findInvoiceStarts pages markers pat, b < pages.length) ∧
    (findInvoiceStarts pages markers pat).Nodup :=
  ⟨findStarts_chain pages markers pat, findStarts_head pages markers pat,
   findStarts_bounded markers pat h, findStarts_nodup pages markers pat⟩

/-- Counterexample to C3 as stated: on a zero-page document the boundary
list is the single entry 0, which is not smaller than the page count 0. -/
theorem boundary_bound_fails_on_empty_doc :
    findInvoiceStarts ([] : List Str) [] none = [0] ∧
    ¬ (∀ b ∈ findInvoiceStarts ([] : List Str) [] none,
        b < ([] : List Str).length) := by
  constructor
  · rfl
  · decide

/-- Witness for the amended C3 on a one-page document. -/
theorem boundary_list_invariants_witness :
    1 ≤ ([[ 'a' ]] : List Str).length ∧
    ((findInvoiceStarts [[ 'a' ]] [] none).Chain' (· < ·) ∧
     (findInvoiceStarts [[ 'a' ]] [] none).head? = some 0 ∧
     (∀ b ∈ findInvoiceStarts [[ 'a' ]] [] none,
        b < ([[ 'a' ]] : List Str).length) ∧
     (findInvoiceStarts [[ 'a' ]] [] none).Nodup) :=
  ⟨by decide, boundary_list_invariants [[ 'a' ]] [] none (by decide)⟩

/-- Claim C2: a marker all of whose case-insensitive occurrences lie at
offset 500 or beyond never fires; if every configured marker is in that
situation the page is not marked; and a page is marked under literal
markers exactly when some marker is contained in the first 500 characters
and its first case-insensitive occurrence in the entire page text is at
offset below 500. -/
theorem marker_beyond_500_not_boundary (marker text : Str)
    (markers : List Str)
    (hfar : ∀ i, occursAt (lowerStr marker) (lowerStr text) i → 500 ≤ i) :
    markerMatches marker text = false ∧
    ((∀ m ∈ markers, ∀ i, occursAt (lowerStr m) (lowerStr text) i → 500 ≤ i) →
      pageQualifies markers none text = false) ∧
    (pageIsNewInvoice markers none text = true ↔
      ∃ m ∈ markers, lowerStr m <:+: lowerStr (text.take 500) ∧
        ∃ i, i < 500 ∧ occursAt (lowerStr m) (lowerStr text) i ∧
          ∀ j, occursAt (lowerStr m) (lowerStr text) j → i ≤ j) := by
  refine ⟨markerMatches_far_false hfar, ?_, ?_⟩
  · intro hall
    unfold pageQualifies pageIsNewInvoice
    have hany : markers.any (fun m => markerMatches m text) = false := by
      rw [List.any_eq_false]
      intro m hm
      rw [markerMatches_far_false (hall m hm)]
      simp
    rw [hany, Bool.and_false]
  · unfold pageIsNewInvoice
    rw [List.any_eq_true]
    constructor
    · rintro ⟨m, hm, hmm⟩
      exact ⟨m, hm, markerMatches_iff.mp hmm⟩
    · rintro ⟨m, hm, h1, h2⟩
      exact ⟨m, hm, markerMatches_iff.mpr ⟨h1, h2⟩⟩

/-- Witness for C2 with a marker absent from the page text. -/
theorem marker_beyond_500_not_boundary_witness :
    (∀ i, occursAt (lowerStr ['z']) (lowerStr ([] : Str)) i → 500 ≤ i) ∧
    (markerMatches ['z'] [] = false ∧
     ((∀ m ∈ ([[ 'z' ]] : List Str),
        ∀ i, occursAt (lowerStr m) (lowerStr ([] : Str)) i → 500 ≤ i) →
       pageQualifies [[ 'z' ]] none [] = false) ∧
     (pageIsNewInvoice [[ 'z' ]] none [] = true ↔
       ∃ m ∈ ([[ 'z' ]] : List Str),
         lowerStr m <:+: lowerStr (([] : Str).take 500) ∧
         ∃ i, i < 500 ∧ occursAt (lowerStr m) (lowerStr ([] : Str)) i ∧
           ∀ j, occursAt (lowerStr m) (lowerStr ([] : Str)) j → i ≤ j)) := by
  have hfar : ∀ i, occursAt (lowerStr ['z']) (lowerStr ([] : Str)) i → 500 ≤ i := by
    intro i h
    exfalso
    have h2 : lowerStr ['z'] <+: List.drop i (lowerStr ([] : Str)) := h
    rw [show lowerStr ([] : Str) = [] from rfl, List.drop_nil] at h2
    exact absurd (List.prefix_nil.mp h2) (by decide)
  exact ⟨hfar, marker_beyond_500_not_boundary ['z'] [] [[ 'z' ]] hfar⟩

/-- Claim C10: the first-occurrence guard in the literal-marker branch is
redundant; the two-condition test accepts exactly the pages accepted by
the containment test on the first 500 characters alone. -/
theorem marker_guard_redundant (marker text : Str) :
    markerMatches marker text =
      pyContains (lowerStr (text.take 500)) (lowerStr marker) :=
  markerMatches_eq_contains marker text

/-- Reading every position of a list through getD reproduces the list. -/
lemma map_range_getD {α : Type} (l : List α) (d : α) :
    (List.range l.length).map (fun i => l.getD i d) = l := by
  apply List.ext_getElem
  · simp
  · intro i h1 h2
    simp [List.getElem?_eq_getElem h2]

/-- The full page range copies the document verbatim. -/
lemma pagesOfRange_full (pages : List Str) :
    pagesOfRange pages (0, pages.length) = pages := by
  unfold pagesOfRange
  rw [Nat.sub_zero, ← List.range_eq_range']
  exact map_range_getD pages []

/-- Every consecutive pair drawn from a chain satisfies the relation. -/
lemma chain'_zip_pairs {α : Type} {R : α → α → Prop} :
    ∀ (l : List α), l.Chain' R → ∀ p ∈ l.zip l.tail, R p.1 p.2 := by
  intro l
  induction l with
  | nil =>
    intro _ p hp
    simp at hp
  | cons x t ih =>
    intro hc p hp
    cases t with
    | nil => simp at hp
    | cons y t' =>
      rcases List.chain'_cons.mp hc with ⟨hxy, hc'⟩
      rw [List.tail_cons, List.zip_cons_cons] at hp
      rcases List.mem_cons.mp hp with rfl | hmem
      · exact hxy
      · exact ih hc' p (by simpa using hmem)

/-- The split loop always takes the success branch, producing one output
record per consecutive pair of the augmented boundary list. -/
lemma splitInvoices_ok_eq (base : String) (pages markers : List Str)
    (pat : Option (Str → Bool)) :
    splitInvoices base pages markers pat =
      Except.ok ((List.range (partitionRanges
          (findInvoiceStarts pages markers pat) pages.length).length).map
        (fun i =>
          let p := (partitionRanges (findInvoiceStarts pages markers pat)
            pages.length).getD i (0, 0)
          { name := base ++ "_faktura_" ++ pad3 (i + 1) ++ ".pdf"
            startPage := p.1
            endPage := p.2
            pages := pagesOfRange pages p })) := by
  unfold splitInvoices
  rw [if_neg]
  simp [List.isEmpty_iff, findStarts_ne_nil pages markers pat]

/-- The augmented boundary list is strictly increasing on a document with
at least one page. -/
lemma aug_chainLt {pages markers : List Str} {pat : Option (Str → Bool)}
    (hN : 1 ≤ pages.length) :
    (findInvoiceStarts pages markers pat ++ [pages.length]).Chain' (· < ·) := by
  apply List.chain'_append.mpr
  refine ⟨findStarts_chain pages markers pat, List.chain'_singleton _, ?_⟩
  intro x hx y hy
  simp at hy
  subst hy
  rcases List.mem_getLast?_eq_getLast hx with ⟨hne, hxe⟩
  exact findStarts_bounded markers pat hN x
    (by rw [hxe]; exact List.getLast_mem hne)

/-- Claim C6: a configured pattern rule takes precedence; the literal
markers are never consulted, so detection and splitting do not depend on
them, and the page decision is exactly the pattern predicate applied to
the full page text. -/
theorem pattern_rule_precedence (pages m1 m2 : List Str) (p : Str → Bool)
    (base : String) (text : Str) :
    pageIsNewInvoice m1 (some p) text = p text ∧
    findInvoiceStarts pages m1 (some p) = findInvoiceStarts pages m2 (some p) ∧
    splitInvoices base pages m1 (some p) = splitInvoices base pages m2 (some p) :=
  ⟨rfl, rfl, rfl⟩

/-- Claim C4: the boundary list always contains page 0, so the
no-boundaries error branch of split_invoices is unreachable; a document
where no page beyond page 0 qualifies splits into exactly one output
covering all pages. -/
theorem no_invoices_error_unreachable (pages markers : List Str)
    (pat : Option (Str → Bool)) (base : String) :
    findInvoiceStarts pages markers pat ≠ [] ∧
    (∃ outs, splitInvoices base pages markers pat = Except.ok outs) ∧
    ((∀ k, 1 ≤ k → k < pages.length →
        pageQualifies markers pat (pages.getD k []) = false) →
      splitInvoices base pages markers pat =
        Except.ok [{ name := base ++ "_faktura_" ++ pad3 1 ++ ".pdf"
                     startPage := 0
                     endPage := pages.length
                     pages := pages }]) := by
  refine ⟨findStarts_ne_nil pages markers pat,
    ⟨_, splitInvoices_ok_eq base pages markers pat⟩, ?_⟩
  intro hnom
  have hstarts : findInvoiceStarts pages markers pat = [0] := by
    unfold findInvoiceStarts
    have hfil : (List.range' 1 (pages.length - 1)).filter
        (fun k => pageQualifies markers pat (pages.getD k [])) = [] := by
      rw [List.filter_eq_nil_iff]
      intro k hk
      have hb := List.mem_range'_1.mp hk
      have h1 : 1 ≤ k := hb.1
      have h2 : k < pages.length := by omega
      rw [hnom k h1 h2]
      simp
    rw [hfil]
  rw [splitInvoices_ok_eq base pages markers pat, hstarts]
  have hseg : partitionRanges [0] pages.length = [(0, pages.length)] := rfl
  rw [hseg]
  simp [pagesOfRange_full, List.range_succ]

/-- Witness for C4 on a two-page document with no marker hits. -/
theorem no_invoices_error_unreachable_witness :
    (∀ k, 1 ≤ k → k < ([[ 'a' ], [ 'b' ]] : List Str).length →
      pageQualifies [] none (([[ 'a' ], [ 'b' ]] : List Str).getD k []) = false) ∧
    (findInvoiceStarts [[ 'a' ], [ 'b' ]] [] none ≠ [] ∧
     (∃ outs, splitInvoices "d" [[ 'a' ], [ 'b' ]] [] none = Except.ok outs) ∧
     ((∀ k, 1 ≤ k → k < ([[ 'a' ], [ 'b' ]] : List Str).length →
        pageQualifies [] none (([[ 'a' ], [ 'b' ]] : List Str).getD k []) = false) →
      splitInvoices "d" [[ 'a' ], [ 'b' ]] [] none =
        Except.ok [{ name := "d" ++ "_faktura_" ++ pad3 1 ++ ".pdf"
                     startPage := 0
                     endPage := ([[ 'a' ], [ 'b' ]] : List Str).length
                     pages := [[ 'a' ], [ 'b' ]] }])) := by
  have hnom : ∀ k, 1 ≤ k → k < ([[ 'a' ], [ 'b' ]] : List Str).length →
      pageQualifies [] none (([[ 'a' ], [ 'b' ]] : List Str).getD k []) = false := by
    decide
  exact ⟨hnom, no_invoices_error_unreachable [[ 'a' ], [ 'b' ]] [] none "d"⟩

/-- Counterexample to C5 as stated: on a zero-page document split_invoices
does not fail; it succeeds with one output document holding zero pages. -/
theorem zero_page_no_error :
    splitInvoices "doc" [] [] none =
      Except.ok [{ name := "doc_faktura_001.pdf", startPage := 0,
                   endPage := 0, pages := [] }] ∧
    ([{ name := "doc_faktura_001.pdf", startPage := 0, endPage := 0,
        pages := ([] : List Str) } ].getD 0 emptyOut).pages.length = 0 :=
  ⟨by rfl, by decide⟩

/-- Claim C5 (corrected/amended): a zero-page document is not rejected:
split_invoices returns exactly one output document with zero pages; on a
document with at least one page, every produced output document contains
at least one page. -/
theorem zero_page_split_behavior (base : String) (markers : List Str)
    (pat : Option (Str → Bool)) (pages : List Str) (outs : List OutputDoc) :
    splitInvoices base [] markers pat =
      Except.ok [{ name := base ++ "_faktura_" ++ pad3 1 ++ ".pdf"
                   startPage := 0
                   endPage := 0
                   pages := [] }] ∧
    (1 ≤ pages.length → splitInvoices base pages markers pat = Except.ok outs →
      ∀ o ∈ outs, 1 ≤ o.pages.length) := by
  constructor
  · rfl
  · intro hN hok o ho
    rw [splitInvoices_ok_eq base pages markers pat] at hok
    have houts := (Except.ok.inj hok).symm
    subst houts
    rcases List.mem_map.mp ho with ⟨i, hi, rfl⟩
    have hilt : i < (partitionRanges (findInvoiceStarts pages markers pat)
        pages.length).length := List.mem_range.mp hi
    have hmem : (partitionRanges (findInvoiceStarts pages markers pat)
        pages.length).getD i (0, 0) ∈
        partitionRanges (findInvoiceStarts pages markers pat) pages.length := by
      rw [List.getD_eq_getElem _ (0, 0) hilt]
      exact List.getElem_mem _
    have hlt := chain'_zip_pairs
      (findInvoiceStarts pages markers pat ++ [pages.length])
      (aug_chainLt hN) _ hmem
    show 1 ≤ (pagesOfRange pages ((partitionRanges
      (findInvoiceStarts pages markers pat) pages.length).getD i (0, 0))).length
    unfold pagesOfRange
    rw [List.length_map, List.length_range']
    omega

/-- Witness for the amended C5 on a one-page document. -/
theorem zero_page_split_behavior_witness :
    (1 ≤ ([[ 'a' ]] : List Str).length ∧
     splitInvoices "s" [[ 'a' ]] [] none =
       Except.ok [{ name := "s_faktura_001.pdf", startPage := 0,
                    endPage := 1, pages := [[ 'a' ]] }]) ∧
    (splitInvoices "s" [] [] none =
       Except.ok [{ name := "s" ++ "_faktura_" ++ pad3 1 ++ ".pdf"
                    startPage := 0
                    endPage := 0
                    pages := [] }] ∧
     (∀ o ∈ ([{ name := "s_faktura_001.pdf", startPage := 0, endPage := 1,
                pages := [[ 'a' ]] }] : List OutputDoc),
        1 ≤ o.pages.length)) :=
  ⟨⟨by decide, by rfl⟩,
   (zero_page_split_behavior "s" [] none [[ 'a' ]]
      [{ name := "s_faktura_001.pdf", startPage := 0, endPage := 1,
         pages := [[ 'a' ]] }]).1,
   (zero_page_split_behavior "s" [] none [[ 'a' ]]
      [{ name := "s_faktura_001.pdf", startPage := 0, endPage := 1,
         pages := [[ 'a' ]] }]).2 (by decide) (by rfl)⟩

/-- Counterexample to C9 as stated: the code names outputs with the
segment faktura, not invoice. -/
theorem output_naming_counterexample :
    splitInvoices "a" [[ 'x' ]] [] none =
      Except.ok [{ name := "a_faktura_001.pdf", startPage := 0, endPage := 1,
                   pages := [[ 'x' ]] }] ∧
    "a_faktura_001.pdf" ≠ "a" ++ "_invoice_" ++ pad3 1 ++ ".pdf" :=
  ⟨by rfl, by decide⟩

/-- Claim C9 (corrected/amended): the output with 1-based sequence number
i is named base, then the segment faktura, then the sequence number
zero-padded to 3 digits, then the pdf extension; the pad is exactly width
3 for all sequence numbers below 1000. -/
theorem output_naming (base : String) (pages markers : List Str)
    (pat : Option (Str → Bool)) (outs : List OutputDoc)
    (hok : splitInvoices base pages markers pat = Except.ok outs) :
    (∀ i, i < outs.length →
      (outs.getD i emptyOut).name =
        base ++ "_faktura_" ++ pad3 (i + 1) ++ ".pdf") ∧
    (∀ n, n < 1000 → (pad3 n).length = 3) := by
  constructor
  · intro i hi
    rw [splitInvoices_ok_eq base pages markers pat] at hok
    have houts := (Except.ok.inj hok).symm
    subst houts
    rw [List.getD_eq_getElem _ emptyOut hi, List.getElem_map,
      List.getElem_range]
  · decide

/-- Witness for the amended C9 on a one-page document. -/
theorem output_naming_witness :
    splitInvoices "a" [[ 'x' ]] [] none =
      Except.ok [{ name := "a_faktura_001.pdf", startPage := 0, endPage := 1,
                   pages := [[ 'x' ]] }] ∧
    (([{ name := "a_faktura_001.pdf", startPage := 0, endPage := 1,
         pages := ([[ 'x' ]] : List Str) }] : List OutputDoc).getD 0
        emptyOut).name = "a" ++ "_faktura_" ++ pad3 (0 + 1) ++ ".pdf" ∧
    (pad3 7).length = 3 := by
  have h := output_naming "a" [[ 'x' ]] [] none
    [{ name := "a_faktura_001.pdf", startPage := 0, endPage := 1,
       pages := [[ 'x' ]] }] (by rfl)
  exact ⟨by rfl, h.1 0 (by decide), h.2 7 (by decide)⟩

/-- Folding the pending-redaction updates only appends to the annotation
list; the page content is untouched. -/
lemma foldl_addRedact {π : Type} (insts : List Rect) :
    ∀ (st : PageState π),
      insts.foldl (fun s r => addRedactAnnot s r) st =
        { content := st.content, pending := st.pending ++ insts } := by
  induction insts with
  | nil =>
    intro st
    simp
  | cons r t ih =>
    intro st
    rw [List.foldl_cons, ih]
    simp [addRedactAnnot]

/-- The key loop of replace_text_multiple leaves the page content as it
was, accumulates all located rectangles as pending annotations, and
records exactly the insertions computed from the initial geometry. -/
lemma replFold_eq {π : Type} (api : FitzApi π) :
    ∀ (repls : List (Str × Str)) (c : π) (pend : List Rect)
      (ins0 : List Insertion),
      repls.foldl (replStep api) (⟨c, pend⟩, ins0) =
        (⟨c, pend ++ rectsAll api repls c⟩, ins0 ++ locateAll api repls c) := by
  intro repls
  induction repls with
  | nil =>
    intro c pend ins0
    simp [rectsAll, locateAll]
  | cons kv rest ih =>
    intro c pend ins0
    rw [List.foldl_cons]
    have hstep : replStep api (⟨c, pend⟩, ins0) kv =
        (⟨c, pend ++ api.search c kv.1⟩,
         ins0 ++ (api.search c kv.1).map (fun r =>
           { point := insertPointOf r, fontSize := fontSizeOf r,
             text := kv.2 })) := by
      simp only [replStep, searchFor]
      rw [foldl_addRedact]
    rw [hstep, ih]
    simp [rectsAll, locateAll, List.flatMap_cons, List.append_assoc]

/-- Claim C7: for every page, the code path of replace_text_multiple is
equal to the spec pipeline that first locates every region and computes
every insertion point and font size from pre-redaction geometry across all
keys, then applies all redactions as one batch, then inserts the texts;
in particular the recorded insertions depend only on the initial page
content, for every possible redaction semantics. -/
theorem replace_locate_before_redact (π : Type) (api : FitzApi π)
    (repls : List (Str × Str)) (s0 : PageState π) :
    processPage api repls s0 = specProcessPage api repls s0 ∧
    pageInsertions api repls s0 = locateAll api repls s0.content := by
  obtain ⟨c, pend⟩ := s0
  have hf := replFold_eq api repls c pend []
  constructor
  · simp only [processPage, specProcessPage]
    rw [hf]
    simp
  · simp only [pageInsertions]
    rw [hf]
    simp

/-- Claim C8: text replacement preserves page count and page order, and a
page with zero matches for every key is returned unchanged. -/
theorem replace_preserves_pages (π : Type) (api : FitzApi π)
    (repls : List (Str × Str)) (doc : List (PageState π)) :
    (replaceTextMultiple api repls doc).length = doc.length ∧
    (∀ i : Nat, (replaceTextMultiple api repls doc)[i]? =
      (doc[i]?).map (processPage api repls)) ∧
    (∀ page : PageState π, (∀ kv ∈ repls, api.search page.content kv.1 = []) →
      processPage api repls page = page) := by
  refine ⟨by simp [replaceTextMultiple], ?_, ?_⟩
  · intro i
    simp [replaceTextMultiple]
  · intro page hno
    obtain ⟨c, pend⟩ := page
    have hloc : locateAll api repls c = [] := by
      unfold locateAll
      rw [List.flatMap_eq_nil_iff]
      intro kv hkv
      rw [hno kv hkv]
      rfl
    have hrect : rectsAll api repls c = [] := by
      unfold rectsAll
      rw [List.flatMap_eq_nil_iff]
      intro kv hkv
      exact hno kv hkv
    simp only [processPage]
    rw [replFold_eq api repls c pend [], hloc, hrect]
    simp

/-- Witness for C8 on a one-page document with no matches. -/
theorem replace_preserves_pages_witness :
    (∀ kv ∈ ([( ['a'], ['b'] )] : List (Str × Str)),
      trivApi.search ({ content := 0, pending := [] } : PageState Nat).content
        kv.1 = []) ∧
    ((replaceTextMultiple trivApi [( ['a'], ['b'] )]
        [({ content := 0, pending := [] } : PageState Nat)]).length =
      ([({ content := 0, pending := [] } : PageState Nat)]).length ∧
     processPage trivApi [( ['a'], ['b'] )]
        ({ content := 0, pending := [] } : PageState Nat) =
      { content := 0, pending := [] }) := by
  have hs : ∀ kv ∈ ([( ['a'], ['b'] )] : List (Str × Str)),
      trivApi.search ({ content := 0, pending := [] } : PageState Nat).content
        kv.1 = [] := by
    intro kv _
    rfl
  have h := replace_preserves_pages Nat trivApi [( ['a'], ['b'] )]
    [({ content := 0, pending := [] } : PageState Nat)]
  exact ⟨hs, h.1, h.2.2 _ hs⟩
